import Mathlib

/-!
Verification of the backtest engine (`Platform/Backtest/engine.py`).

The simulation core `Backtester._simulate` and the metric computation
`Backtester._calculate_metrics` are shallowly embedded here.  Python floats
are modelled as exact rationals (every IEEE double is a rational number);
pandas NaN values, where they can arise from real-valued data, are modelled
by `Option ℚ` with `none` playing the role of NaN (any comparison with NaN
is false, which the embedding spells out at each use site).  Tickers are
identified with natural numbers; a price row is `Nat → Option ℚ` where
`none` models a missing (NaN) price; dates are natural numbers.
-/

namespace Engine

/-- Trade actions, as in the `'action'` field of the trade dict. -/
inductive Action where
  | BUY : Action
  | SELL : Action
deriving DecidableEq, Repr

/-- One trade record, mirroring the dict appended to `trades` in
`Backtester._simulate`: `{date, ticker, action, shares, price, value, cost}`. -/
structure Trade where
  date : Nat
  ticker : Nat
  action : Action
  shares : ℚ
  price : ℚ
  value : ℚ
  cost : ℚ
deriving DecidableEq, Repr

/-- Pointwise update of a holdings vector (`holdings[ticker] = v`). -/
def updateH (h : Nat → ℚ) (t : Nat) (v : ℚ) : Nat → ℚ :=
  fun u => if u = t then v else h u

/-- One row of the aligned input data: the date, the close-price row
(`close.loc[date]`, `none` = NaN) and the weight row (`weights.loc[date]`,
`none` = NaN, zero-filled only when captured as a pending order). -/
structure DayInput where
  date : Nat
  price : Nat → Option ℚ
  weight : Nat → Option ℚ

/-- The configuration of one `_simulate` call: cost rates, the fractional-lot
flag and the (aligned) ticker universe, i.e. `weights.columns`. -/
structure SimParams where
  transaction_cost : ℚ
  tax : ℚ
  slippage : ℚ
  allow_fractional : Bool
  tickers : List Nat

/-- The mutable state threaded through the order-execution loops:
`cash`, `holdings` and the trades appended so far by this execution. -/
structure ExecState where
  cash : ℚ
  holdings : Nat → ℚ
  log : List Trade

/-- `target_shares` for one ticker: `(pending_weights * total_value / price)`
with `.fillna(0)` for a missing price, floored to whole shares when
`allow_fractional`, else rounded down to a 1000-share lot. -/
def targetShares (allowFrac : Bool) (w : Nat → ℚ) (price : Nat → Option ℚ)
    (total : ℚ) (t : Nat) : ℚ :=
  match price t with
  | none => 0
  | some p =>
      let ts := w t * total / p
      if allowFrac then ((⌊ts⌋ : ℤ) : ℚ) else ((⌊ts / 1000⌋ : ℤ) : ℚ) * 1000

/-- Market value of the holdings at a price row:
`(holdings * price).fillna(0)` summed over the ticker universe. -/
def holdingsValue (tickers : List Nat) (h : Nat → ℚ) (price : Nat → Option ℚ) : ℚ :=
  (tickers.map (fun t =>
    match price t with
    | none => 0
    | some p => h t * p)).sum

/-- Body of the sell loop of `_simulate` for one ticker: skip a missing or
non-positive price, sell `min(|delta|, holdings[ticker])` shares when that is
positive, credit `proceeds - fee - tax` to cash and append a SELL trade. -/
def sellStep (P : SimParams) (delta : Nat → ℚ) (price : Nat → Option ℚ)
    (date : Nat) (acc : ExecState) (t : Nat) : ExecState :=
  match price t with
  | none => acc
  | some p =>
      if p ≤ 0 then acc
      else
        let sell_shares := min |delta t| (acc.holdings t)
        if 0 < sell_shares then
          let proceeds := sell_shares * p * (1 - P.slippage)
          let fee := proceeds * P.transaction_cost
          let tax_cost := proceeds * P.tax
          { cash := acc.cash + (proceeds - fee - tax_cost),
            holdings := updateH acc.holdings t (acc.holdings t - sell_shares),
            log := acc.log ++ [⟨date, t, Action.SELL, -sell_shares, p, proceeds, fee + tax_cost⟩] }
        else acc

/-- Body of the buy loop of `_simulate` for one ticker: skip a missing or
non-positive price, compute `total_cost = cost + fee` with
`cost = shares * price * (1 + slippage)` and `fee = cost * transaction_cost`,
and execute only when `total_cost ≤ cash`. -/
def buyStep (P : SimParams) (delta : Nat → ℚ) (price : Nat → Option ℚ)
    (date : Nat) (acc : ExecState) (t : Nat) : ExecState :=
  match price t with
  | none => acc
  | some p =>
      if p ≤ 0 then acc
      else
        let cost := delta t * p * (1 + P.slippage)
        let fee := cost * P.transaction_cost
        let total_cost := cost + fee
        if total_cost ≤ acc.cash then
          { cash := acc.cash - total_cost,
            holdings := updateH acc.holdings t (acc.holdings t + delta t),
            log := acc.log ++ [⟨date, t, Action.BUY, delta t, p, cost, fee⟩] }
        else acc

/-- The order-execution step of `_simulate` (the body of
`if pending_weights is not None`): value the portfolio, size targets, take
deltas against current holdings, partition into sells (`delta < -0.01`) and
buys (`delta > 0.01`), run all sells, then all buys. -/
def execOrders (P : SimParams) (w : Nat → ℚ) (price : Nat → Option ℚ)
    (date : Nat) (cash : ℚ) (holdings : Nat → ℚ) : ExecState :=
  let total_value := cash + holdingsValue P.tickers holdings price
  let delta : Nat → ℚ := fun t =>
    targetShares P.allow_fractional w price total_value t - holdings t
  let sell_tickers := P.tickers.filter (fun t => delta t < -(1/100 : ℚ))
  let buy_tickers := P.tickers.filter (fun t => (1/100 : ℚ) < delta t)
  let afterSells := sell_tickers.foldl (sellStep P delta price date) ⟨cash, holdings, []⟩
  buy_tickers.foldl (buyStep P delta price date) afterSells

/-- The per-date state of `_simulate`: cash, holdings, the pending weight
row captured on the last rebalance date (if not yet executed), and the
accumulated outputs (value series, positions snapshots, trade log). -/
structure SimState where
  cash : ℚ
  holdings : Nat → ℚ
  pending : Option (Nat → ℚ)
  values : List ℚ
  positions : List (Nat → ℚ)
  trades : List Trade

/-- Initial simulator state: `cash = initial_capital`, all-zero holdings, no
pending order and empty outputs. -/
def initState (initial_capital : ℚ) : SimState :=
  { cash := initial_capital, holdings := fun _ => 0, pending := none,
    values := [], positions := [], trades := [] }

/-- One iteration of the date loop of `_simulate`: execute the pending order
(if any) at today's prices, then capture today's weight row (zero-filled) as
pending when today is a rebalance date, then append today's valuation
`cash + Σ (holdings * price).fillna(0)` and a holdings snapshot. -/
def step (P : SimParams) (rebal : Nat → Bool) (st : SimState) (day : DayInput) : SimState :=
  let st1 :=
    match st.pending with
    | none => st
    | some w =>
        let e := execOrders P w day.price day.date st.cash st.holdings
        { st with cash := e.cash, holdings := e.holdings,
                  trades := st.trades ++ e.log, pending := none }
  let st2 :=
    if rebal day.date then
      { st1 with pending := some (fun t => (day.weight t).getD 0) }
    else st1
  { st2 with
    values := st2.values ++ [st2.cash + holdingsValue P.tickers st2.holdings day.price],
    positions := st2.positions ++ [st2.holdings] }

/-- `Backtester._simulate`: fold the date loop over the aligned day rows. -/
def simulate (P : SimParams) (rebal : Nat → Bool) (initial_capital : ℚ)
    (days : List DayInput) : SimState :=
  days.foldl (step P rebal) (initState initial_capital)

/-- The simulator state after the first `i` dates have been processed. -/
def stateAfter (P : SimParams) (rebal : Nat → Bool) (initial_capital : ℚ)
    (days : List DayInput) (i : Nat) : SimState :=
  simulate P rebal initial_capital (days.take i)

/-- The trades emitted while processing one date: the execution of the
pending order, if there is one (otherwise no trade is emitted that date). -/
def stepNewTrades (P : SimParams) (st : SimState) (day : DayInput) : List Trade :=
  match st.pending with
  | none => []
  | some w => (execOrders P w day.price day.date st.cash st.holdings).log

/-- The trades `_simulate` emits while processing the date at index `i`. -/
def tradesAt (P : SimParams) (rebal : Nat → Bool) (initial_capital : ℚ)
    (days : List DayInput) (i : Nat) : List Trade :=
  (stateAfter P rebal initial_capital days (i + 1)).trades.drop
    (stateAfter P rebal initial_capital days i).trades.length

/-- Cost-free parameters with ticker universe `{0, 1}` (Scenario 1: tickers
A, B with A = 0, B = 1), fractional shares allowed. -/
def scnP : SimParams := ⟨0, 0, 0, true, [0, 1]⟩

/-- Scenario rebalance set: only the first date (date 1) is a rebalance date. -/
def scnRebal : Nat → Bool := fun d => d == 1

/-- Scenario prices: A (ticker 0) constant at 100, B (ticker 1) constant at 50. -/
def scnPrice : Nat → Option ℚ := fun t => if t = 0 then some 100 else some 50

/-- Scenario 1 input rows: three dates, weight `{A: 1.0}` issued at date 1. -/
def scnDays : List DayInput :=
  [⟨1, scnPrice, fun t => if t = 0 then some 1 else some 0⟩,
   ⟨2, scnPrice, fun _ => some 0⟩,
   ⟨3, scnPrice, fun _ => some 0⟩]

/-! ## `Backtester._calculate_metrics`

Floats are again exact rationals; a pandas scalar that can be NaN is an
`Option ℚ` with `none` for NaN, and every comparison `NaN > 0` is false
(spelled as a `match` with the `none` branch giving the comparison's false
arm).  The two irrational operations of the source, `numpy.sqrt` and the
float power `**` used for the CAGR, are taken as parameters `sqrtQ`/`powQ`:
everything proved below holds for every instantiation of them.  ℚ division
by zero yields 0 where numpy would give inf/NaN; no claim depends on that
corner (it needs a non-positive running maximum of the value series). -/

/-- `Series.mean()`: NaN (`none`) on an empty series. -/
def listMean (l : List ℚ) : Option ℚ :=
  if l = [] then none else some (l.sum / (l.length : ℚ))

/-- `Series.std()` (sample standard deviation, `ddof = 1`): NaN on a series
of length 0 or 1, else `sqrt(Σ (x - mean)² / (n - 1))`. -/
def stdQ (sqrtQ : ℚ → ℚ) (l : List ℚ) : Option ℚ :=
  if l.length ≤ 1 then none
  else
    some (sqrtQ ((l.map (fun x => (x - l.sum / (l.length : ℚ)) ^ 2)).sum /
      ((l.length : ℚ) - 1)))

/-- Lines 542–549 of `engine.py`: `winning_days`, `avg_win`, `losing_days`,
`avg_loss` and the guarded quotient `profit_loss_ratio`.  `losing_days` is
`total_days - winning_days` (it counts zero-return days); `avg_loss` is NaN
when that is positive but no return is strictly negative (pandas mean of an
empty slice), and `NaN > 0` being false sends the final guard to `0.0`. -/
def profit_loss_ratio (rs : List ℚ) : ℚ :=
  let total_days := rs.length
  let winning_days := (rs.filter (fun r => 0 < r)).length
  let avg_win : ℚ :=
    if 0 < winning_days then
      (rs.filter (fun r => 0 < r)).sum / (winning_days : ℚ)
    else 0
  let losing_days := total_days - winning_days
  let avg_loss : Option ℚ :=
    if 0 < losing_days then
      match listMean (rs.filter (fun r => r < 0)) with
      | none => none
      | some m => some |m|
    else some 1
  match avg_loss with
  | none => 0
  | some a => if 0 < a then avg_win / a else 0

/-- The running tail of `value < value.cummax()`, carrying the running
maximum `m` of the already-seen prefix. -/
def belowFlagsAux (m : ℚ) : List ℚ → List Bool
  | [] => []
  | v :: r => decide (v < max m v) :: belowFlagsAux (max m v) r

/-- `is_dd = portfolio_value < portfolio_value.cummax()` as a flag list. -/
def belowFlags : List ℚ → List Bool
  | [] => []
  | v :: r => belowFlagsAux v (v :: r)

/-- Maximal runs of consecutive equal flags: the grouping produced by
`dd_groups = (is_dd != is_dd.shift()).cumsum()` followed by `groupby`. -/
def chunkRuns : List Bool → List (List Bool)
  | [] => []
  | b :: r =>
      match chunkRuns r with
      | [] => [[b]]
      | [] :: gs => [b] :: gs
      | (c :: g) :: gs =>
          if b = c then (b :: c :: g) :: gs else [b] :: (c :: g) :: gs

/-- `max_drawdown_days`: group the below-peak flags into runs of equal
flags, sum the flags inside each group (`dd_lengths = is_dd.groupby(…).sum()`)
and take the maximum, `0.0` when there are no groups. -/
def max_drawdown_days (vs : List ℚ) : Nat :=
  ((chunkRuns (belowFlags vs)).map (fun g => g.count true)).foldr max 0

/-- Spec-side reading of the same quantity, written from the spec's words:
the length of the true-prefix of a flag list. -/
def truePrefixLen : List Bool → Nat
  | true :: r => truePrefixLen r + 1
  | _ => 0

/-- Spec-side reading: the length of the longest contiguous run of `true`
flags ("longest contiguous run of dates where `value < running_max`"). -/
def longestTrueRun : List Bool → Nat
  | [] => 0
  | false :: r => longestTrueRun r
  | true :: r => max (truePrefixLen r + 1) (longestTrueRun r)

/-- The running tail of `drawdown = value / cummax - 1`. -/
def drawdownAux (m : ℚ) : List ℚ → List ℚ
  | [] => []
  | v :: r => (v / max m v - 1) :: drawdownAux (max m v) r

/-- `drawdown = portfolio_value / portfolio_value.cummax() - 1`. -/
def drawdownList : List ℚ → List ℚ
  | [] => []
  | v :: r => drawdownAux v (v :: r)

/-- `Series.min()` with a default for the empty series (unreachable in the
guarded branch where it is used). -/
def listMinD (l : List ℚ) (d0 : ℚ) : ℚ :=
  match l with
  | [] => d0
  | x :: r => r.foldl min x

/-- `weights.diff().abs().sum(axis=1).sum()`: the first `diff` row is NaN
and pandas `sum` skips NaN, so it contributes nothing. -/
def weightChanges (weights : List (List ℚ)) : ℚ :=
  (List.zipWith (fun r1 r2 => (List.zipWith (fun a b => |b - a|) r1 r2).sum)
    weights weights.tail).sum

/-- `avg_positions = (weights > 0).sum(axis=1).mean()`: NaN when there are
no weight rows. -/
def avgPositions (weights : List (List ℚ)) : Option ℚ :=
  if weights.length = 0 then none
  else
    some ((weights.map (fun row => ((row.filter (fun w => 0 < w)).length : ℚ))).sum /
      (weights.length : ℚ))

/-- The record returned by `_calculate_metrics`, one field per key of the
returned dict. -/
structure Metrics where
  final_value : ℚ
  total_return : ℚ
  annual_return : ℚ
  annual_volatility : Option ℚ
  sharpe_ratio : ℚ
  sortino_ratio : ℚ
  calmar_ratio : ℚ
  max_drawdown : ℚ
  max_drawdown_days : ℚ
  win_rate : ℚ
  profit_loss_ratio : ℚ
  total_trades : ℚ
  annual_turnover : ℚ
  avg_positions : Option ℚ
deriving DecidableEq, Repr

/-- `Backtester._empty_metrics`: the all-zero/neutral record. -/
def emptyMetrics : Metrics :=
  { final_value := 0, total_return := 0, annual_return := 0,
    annual_volatility := some 0, sharpe_ratio := 0, sortino_ratio := 0,
    calmar_ratio := 0, max_drawdown := 0, max_drawdown_days := 0,
    win_rate := 0, profit_loss_ratio := 0, total_trades := 0,
    annual_turnover := 0, avg_positions := some 0 }

/-- `Backtester._calculate_metrics`.  `sqrtQ` stands for `numpy.sqrt` and
`powQ` for the float `**`; both are arbitrary. -/
def calculateMetrics (sqrtQ : ℚ → ℚ) (powQ : ℚ → ℚ → ℚ)
    (portfolio_value : List ℚ) (portfolio_returns : List ℚ)
    (initial_capital : ℚ) (weights : List (List ℚ)) (trades : List Trade) :
    Metrics :=
  if portfolio_value.length = 0 ∨ initial_capital ≤ 0 then emptyMetrics
  else
    let final_value := (portfolio_value.getLast?).getD 0
    let total_return := final_value / initial_capital - 1
    let n_days := portfolio_value.length
    let n_years : ℚ := (n_days : ℚ) / 252
    let annual_return :=
      if 0 < n_years then powQ (1 + total_return) (1 / n_years) - 1 else 0
    let daily_std : Option ℚ :=
      if portfolio_returns.length = 0 then some 0 else stdQ sqrtQ portfolio_returns
    let annual_volatility : Option ℚ :=
      match daily_std with
      | none => none
      | some s => some (s * sqrtQ 252)
    let excess_return := annual_return - 2 / 100
    let sharpe_ratio : ℚ :=
      match annual_volatility with
      | none => 0
      | some v => if 0 < v then excess_return / v else 0
    let downside_returns := portfolio_returns.filter (fun r => r < 0)
    let downside_std : Option ℚ :=
      if 0 < downside_returns.length then
        match stdQ sqrtQ downside_returns with
        | none => none
        | some s => some (s * sqrtQ 252)
      else some 0
    let sortino_ratio : ℚ :=
      match downside_std with
      | none => 0
      | some v => if 0 < v then excess_return / v else 0
    let max_drawdown := listMinD (drawdownList portfolio_value) 0
    let calmar_ratio :=
      if max_drawdown < 0 then annual_return / |max_drawdown| else 0
    let total_days := portfolio_returns.length
    let winning_days := (portfolio_returns.filter (fun r => 0 < r)).length
    let win_rate : ℚ :=
      if 0 < total_days then (winning_days : ℚ) / (total_days : ℚ) else 0
    { final_value := final_value,
      total_return := total_return,
      annual_return := annual_return,
      annual_volatility := annual_volatility,
      sharpe_ratio := sharpe_ratio,
      sortino_ratio := sortino_ratio,
      calmar_ratio := calmar_ratio,
      max_drawdown := max_drawdown,
      max_drawdown_days := (Engine.max_drawdown_days portfolio_value : ℚ),
      win_rate := win_rate,
      profit_loss_ratio := Engine.profit_loss_ratio portfolio_returns,
      total_trades := (trades.length : ℚ),
      annual_turnover := if 0 < n_years then weightChanges weights / n_years else 0,
      avg_positions := avgPositions weights }

section StructuralLemmas

variable {P : SimParams} {rebal : Nat → Bool} {cap : ℚ}

lemma step_trades (st : SimState) (day : DayInput) :
    (step P rebal st day).trades = st.trades ++ stepNewTrades P st day := by
  cases h : st.pending <;> by_cases hr : rebal day.date <;>
    simp [step, stepNewTrades, h, hr]

lemma step_pending (st : SimState) (day : DayInput) :
    (step P rebal st day).pending =
      if rebal day.date then some (fun t => (day.weight t).getD 0) else none := by
  cases h : st.pending <;> by_cases hr : rebal day.date <;>
    simp [step, h, hr]

lemma step_values (st : SimState) (day : DayInput) :
    (step P rebal st day).values =
      st.values ++ [(step P rebal st day).cash +
        holdingsValue P.tickers (step P rebal st day).holdings day.price] := by
  cases h : st.pending <;> by_cases hr : rebal day.date <;>
    simp [step, h, hr]

lemma foldl_values_length (l : List DayInput) (st : SimState) :
    (List.foldl (step P rebal) st l).values.length = st.values.length + l.length := by
  induction l generalizing st with
  | nil => simp
  | cons d l ih =>
      simp only [List.foldl_cons, ih, step_values, List.length_append]
      simp
      omega

lemma foldl_values_stable (l : List DayInput) (st : SimState) (i : Nat)
    (hi : i < st.values.length) :
    (List.foldl (step P rebal) st l).values[i]? = st.values[i]? := by
  induction l generalizing st with
  | nil => simp
  | cons d l ih =>
      rw [List.foldl_cons, ih]
      · rw [step_values]
        simp [List.getElem?_append, hi]
      · rw [step_values, List.length_append]
        omega

lemma stateAfter_succ (days : List DayInput) (i : Nat) (hi : i < days.length) :
    stateAfter P rebal cap days (i + 1) =
      step P rebal (stateAfter P rebal cap days i) (days.get ⟨i, hi⟩) := by
  unfold stateAfter simulate
  conv_lhs => rw [List.take_succ, List.getElem?_eq_getElem hi]
  rw [List.foldl_append]
  simp

lemma stateAfter_of_le (days : List DayInput) (i : Nat) (hi : days.length ≤ i) :
    stateAfter P rebal cap days i = simulate P rebal cap days := by
  unfold stateAfter
  rw [List.take_of_length_le hi]

end StructuralLemmas

/-- C2: Value conservation: the portfolio value appended for the date at
index `i` equals the cash balance at that moment plus the sum over the
ticker universe of holdings times that date's price, a missing price
contributing zero — exactly (in ℚ, hence within any floating-point
tolerance), where cash and holdings are those of the state right after that
date was processed. -/
theorem C2_value_conservation (P : SimParams) (rebal : Nat → Bool) (cap : ℚ)
    (days : List DayInput) (i : Nat) (hi : i < days.length) :
    (simulate P rebal cap days).values[i]? =
      some ((stateAfter P rebal cap days (i + 1)).cash +
        holdingsValue P.tickers (stateAfter P rebal cap days (i + 1)).holdings
          (days.get ⟨i, hi⟩).price) := by
  have hfull : simulate P rebal cap days =
      List.foldl (step P rebal) (stateAfter P rebal cap days (i + 1)) (days.drop (i + 1)) := by
    unfold stateAfter simulate
    rw [← List.foldl_append, List.take_append_drop]
  have hlen : (stateAfter P rebal cap days i).values.length = i := by
    unfold stateAfter simulate
    rw [foldl_values_length]
    simp [initState, List.length_take]
    omega
  have hlen1 : (stateAfter P rebal cap days (i + 1)).values.length = i + 1 := by
    unfold stateAfter simulate
    rw [foldl_values_length]
    simp [initState, List.length_take]
    omega
  rw [hfull, foldl_values_stable _ _ i (by omega)]
  rw [stateAfter_succ days i hi, step_values]
  rw [← stateAfter_succ days i hi]
  simp [List.getElem?_append, hlen]

/-- C2 witness: the conservation identity instantiated on the concrete
Scenario-1 run at its second date. -/
theorem C2_value_conservation_witness :
    (simulate scnP scnRebal 1000000 scnDays).values[1]? =
      some ((stateAfter scnP scnRebal 1000000 scnDays 2).cash +
        holdingsValue scnP.tickers (stateAfter scnP scnRebal 1000000 scnDays 2).holdings
          (scnDays.get ⟨1, by decide⟩).price) :=
  C2_value_conservation scnP scnRebal 1000000 scnDays 1 (by decide)

section HoldingsNonneg

variable {P : SimParams} {delta : Nat → ℚ} {pr : Nat → Option ℚ} {d : Nat}

lemma sellStep_holdings_nonneg (acc : ExecState) (t : Nat)
    (h : ∀ u, 0 ≤ acc.holdings u) :
    ∀ u, 0 ≤ (sellStep P delta pr d acc t).holdings u := by
  intro u
  cases hpr : pr t with
  | none => simpa [sellStep, hpr] using h u
  | some p =>
      by_cases hp : p ≤ 0
      · simpa [sellStep, hpr, hp] using h u
      · by_cases hs : 0 < min |delta t| (acc.holdings t)
        · simp only [sellStep, hpr, hp, if_neg, if_pos hs, ite_false]
          simp only [updateH]
          split
          · have := min_le_right |delta t| (acc.holdings t)
            linarith
          · exact h u
        · simpa [sellStep, hpr, hp, hs] using h u

lemma buyStep_holdings_nonneg (acc : ExecState) (t : Nat) (hd : 0 ≤ delta t)
    (h : ∀ u, 0 ≤ acc.holdings u) :
    ∀ u, 0 ≤ (buyStep P delta pr d acc t).holdings u := by
  intro u
  cases hpr : pr t with
  | none => simpa [buyStep, hpr] using h u
  | some p =>
      by_cases hp : p ≤ 0
      · simpa [buyStep, hpr, hp] using h u
      · by_cases hc : delta t * p * (1 + P.slippage) +
            delta t * p * (1 + P.slippage) * P.transaction_cost ≤ acc.cash
        · simp only [buyStep, hpr, hp, ite_false, if_pos hc]
          simp only [updateH]
          split
          · have := h t
            linarith
          · exact h u
        · simpa [buyStep, hpr, hp, hc] using h u

lemma sellFold_holdings_nonneg (ts : List Nat) (acc : ExecState)
    (h : ∀ u, 0 ≤ acc.holdings u) :
    ∀ u, 0 ≤ (ts.foldl (sellStep P delta pr d) acc).holdings u := by
  induction ts generalizing acc with
  | nil => simpa using h
  | cons t ts ih =>
      rw [List.foldl_cons]
      exact ih _ (sellStep_holdings_nonneg acc t h)

lemma buyFold_holdings_nonneg : ∀ (ts : List Nat) (acc : ExecState),
    (∀ t ∈ ts, 0 ≤ delta t) → (∀ u, 0 ≤ acc.holdings u) →
    ∀ u, 0 ≤ (ts.foldl (buyStep P delta pr d) acc).holdings u := by
  intro ts
  induction ts with
  | nil =>
      intro acc _ h
      simpa using h
  | cons t ts ih =>
      intro acc hts h
      rw [List.foldl_cons]
      exact ih _ (fun x hx => hts x (List.mem_cons_of_mem t hx))
        (buyStep_holdings_nonneg acc t (hts t (List.mem_cons_self t ts)) h)

lemma execOrders_holdings_nonneg (P : SimParams) (w : Nat → ℚ)
    (pr : Nat → Option ℚ) (d : Nat) (cash : ℚ) (holdings : Nat → ℚ)
    (h : ∀ u, 0 ≤ holdings u) :
    ∀ u, 0 ≤ (execOrders P w pr d cash holdings).holdings u := by
  unfold execOrders
  apply buyFold_holdings_nonneg
  · intro t ht
    have := List.of_mem_filter ht
    have h2 : (1 / 100 : ℚ) <
        targetShares P.allow_fractional w pr
          (cash + holdingsValue P.tickers holdings pr) t - holdings t := by
      exact_mod_cast of_decide_eq_true this
    linarith
  · exact sellFold_holdings_nonneg _ _ h

lemma step_holdings_nonneg {P : SimParams} {rebal : Nat → Bool}
    (st : SimState) (day : DayInput) (h : ∀ u, 0 ≤ st.holdings u) :
    ∀ u, 0 ≤ (step P rebal st day).holdings u := by
  intro u
  cases hp : st.pending with
  | none =>
      by_cases hr : rebal day.date <;> simpa [step, hp, hr] using h u
  | some w =>
      by_cases hr : rebal day.date <;>
        simpa [step, hp, hr] using
          execOrders_holdings_nonneg P w day.price day.date st.cash st.holdings h u

end HoldingsNonneg

section CashNonneg

variable {P : SimParams}

lemma sellStep_cash_nonneg (hslip : P.slippage ≤ 1) (hft : P.transaction_cost + P.tax ≤ 1)
    (delta : Nat → ℚ) (pr : Nat → Option ℚ) (d : Nat) (acc : ExecState) (t : Nat)
    (h : 0 ≤ acc.cash) : 0 ≤ (sellStep P delta pr d acc t).cash := by
  cases hpr : pr t with
  | none => simpa [sellStep, hpr] using h
  | some p =>
      by_cases hp : p ≤ 0
      · simpa [sellStep, hpr, hp] using h
      · by_cases hs : 0 < min |delta t| (acc.holdings t)
        · simp only [sellStep, hpr, hp, ite_false, if_pos hs]
          have hpr0 : 0 ≤ min |delta t| (acc.holdings t) * p * (1 - P.slippage) := by
            apply mul_nonneg (mul_nonneg hs.le (by linarith))
            linarith
          have hfact : min |delta t| (acc.holdings t) * p * (1 - P.slippage) -
              min |delta t| (acc.holdings t) * p * (1 - P.slippage) * P.transaction_cost -
              min |delta t| (acc.holdings t) * p * (1 - P.slippage) * P.tax =
              min |delta t| (acc.holdings t) * p * (1 - P.slippage) *
                (1 - (P.transaction_cost + P.tax)) := by
            ring
          have := mul_nonneg hpr0 (by linarith : (0:ℚ) ≤ 1 - (P.transaction_cost + P.tax))
          linarith [this, hfact]
        · simpa [sellStep, hpr, hp, hs] using h

lemma buyStep_cash_nonneg (delta : Nat → ℚ) (pr : Nat → Option ℚ) (d : Nat)
    (acc : ExecState) (t : Nat) (h : 0 ≤ acc.cash) :
    0 ≤ (buyStep P delta pr d acc t).cash := by
  cases hpr : pr t with
  | none => simpa [buyStep, hpr] using h
  | some p =>
      by_cases hp : p ≤ 0
      · simpa [buyStep, hpr, hp] using h
      · by_cases hc : delta t * p * (1 + P.slippage) +
            delta t * p * (1 + P.slippage) * P.transaction_cost ≤ acc.cash
        · simp only [buyStep, hpr, hp, ite_false, if_pos hc]
          linarith
        · simpa [buyStep, hpr, hp, hc] using h

lemma sellFold_cash_nonneg (hslip : P.slippage ≤ 1) (hft : P.transaction_cost + P.tax ≤ 1)
    (delta : Nat → ℚ) (pr : Nat → Option ℚ) (d : Nat) :
    ∀ (ts : List Nat) (acc : ExecState), 0 ≤ acc.cash →
      0 ≤ (ts.foldl (sellStep P delta pr d) acc).cash := by
  intro ts
  induction ts with
  | nil =>
      intro acc h
      exact h
  | cons t ts ih =>
      intro acc h
      rw [List.foldl_cons]
      exact ih _ (sellStep_cash_nonneg hslip hft delta pr d acc t h)

lemma buyFold_cash_nonneg (delta : Nat → ℚ) (pr : Nat → Option ℚ) (d : Nat) :
    ∀ (ts : List Nat) (acc : ExecState), 0 ≤ acc.cash →
      0 ≤ (ts.foldl (buyStep P delta pr d) acc).cash := by
  intro ts
  induction ts with
  | nil =>
      intro acc h
      exact h
  | cons t ts ih =>
      intro acc h
      rw [List.foldl_cons]
      exact ih _ (buyStep_cash_nonneg delta pr d acc t h)

lemma execOrders_cash_nonneg (hslip : P.slippage ≤ 1) (hft : P.transaction_cost + P.tax ≤ 1)
    (w : Nat → ℚ) (pr : Nat → Option ℚ) (d : Nat) (cash : ℚ) (holdings : Nat → ℚ)
    (h : 0 ≤ cash) : 0 ≤ (execOrders P w pr d cash holdings).cash := by
  unfold execOrders
  apply buyFold_cash_nonneg
  exact sellFold_cash_nonneg hslip hft _ _ _ _ _ h

lemma step_cash_nonneg {rebal : Nat → Bool} (hslip : P.slippage ≤ 1)
    (hft : P.transaction_cost + P.tax ≤ 1) (st : SimState) (day : DayInput)
    (h : 0 ≤ st.cash) : 0 ≤ (step P rebal st day).cash := by
  cases hp : st.pending with
  | none =>
      by_cases hr : rebal day.date <;> simpa [step, hp, hr] using h
  | some w =>
      by_cases hr : rebal day.date <;>
        simpa [step, hp, hr] using
          execOrders_cash_nonneg hslip hft w day.price day.date st.cash st.holdings h

end CashNonneg

/-- C6: Non-negative cash: with `initial_capital ≥ 0` and `transaction_cost`,
`tax`, `slippage` each in `[0,1]` with `transaction_cost + tax ≤ 1`, cash
stays non-negative after every individual trade (each sell/buy loop
iteration preserves it) and hence at every date of every run: a sell adds
`proceeds·(1 − fee − tax) ≥ 0` and a buy only executes when its total cost
fits in the current cash. -/
theorem C6_nonneg_cash (P : SimParams) (cap : ℚ) (hcap : 0 ≤ cap)
    (hfee0 : 0 ≤ P.transaction_cost) (hfee1 : P.transaction_cost ≤ 1)
    (htax0 : 0 ≤ P.tax) (htax1 : P.tax ≤ 1)
    (hslip0 : 0 ≤ P.slippage) (hslip1 : P.slippage ≤ 1)
    (hft : P.transaction_cost + P.tax ≤ 1) :
    (∀ (delta : Nat → ℚ) (pr : Nat → Option ℚ) (d : Nat) (acc : ExecState) (t : Nat),
        0 ≤ acc.cash → 0 ≤ (sellStep P delta pr d acc t).cash) ∧
    (∀ (delta : Nat → ℚ) (pr : Nat → Option ℚ) (d : Nat) (acc : ExecState) (t : Nat),
        0 ≤ acc.cash → 0 ≤ (buyStep P delta pr d acc t).cash) ∧
    (∀ (rebal : Nat → Bool) (days : List DayInput) (i : Nat),
        0 ≤ (stateAfter P rebal cap days i).cash) := by
  refine ⟨fun delta pr d acc t h => sellStep_cash_nonneg hslip1 hft delta pr d acc t h,
          fun delta pr d acc t h => buyStep_cash_nonneg delta pr d acc t h,
          fun rebal days i => ?_⟩
  have key : ∀ (l : List DayInput) (st : SimState), 0 ≤ st.cash →
      0 ≤ (List.foldl (step P rebal) st l).cash := by
    intro l
    induction l with
    | nil =>
        intro st h
        exact h
    | cons dd l ih =>
        intro st h
        rw [List.foldl_cons]
        exact ih _ (step_cash_nonneg hslip1 hft st dd h)
  exact key _ _ hcap

/-- C6 witness: the cash invariant instantiated on the concrete cost-free
Scenario-1 run after all three dates. -/
theorem C6_nonneg_cash_witness :
    0 ≤ (stateAfter scnP scnRebal 1000000 scnDays 3).cash :=
  (C6_nonneg_cash scnP 1000000 (by norm_num) (by norm_num [scnP]) (by norm_num [scnP])
    (by norm_num [scnP]) (by norm_num [scnP]) (by norm_num [scnP]) (by norm_num [scnP])
    (by norm_num [scnP])).2.2 scnRebal scnDays 3

/-- C4: Insufficient-cash buy atomicity: a buy whose
`total_cost = shares * price * (1 + slippage) * (1 + transaction_cost)`
exceeds the cash available at that moment leaves cash, holdings and the trade
log untouched, and the rest of the buy batch continues exactly as if that
ticker had not been in it (so other affordable buys still execute). -/
theorem C4_insufficient_cash_skip (P : SimParams) (delta : Nat → ℚ)
    (pr : Nat → Option ℚ) (d : Nat) (c : ℚ) (h : Nat → ℚ) (log : List Trade)
    (t : Nat) (p : ℚ) (hpr : pr t = some p) (hp : 0 < p)
    (hc : c < delta t * p * (1 + P.slippage) * (1 + P.transaction_cost)) :
    buyStep P delta pr d ⟨c, h, log⟩ t = ⟨c, h, log⟩ ∧
    ∀ rest : List Nat, List.foldl (buyStep P delta pr d) ⟨c, h, log⟩ (t :: rest) =
      List.foldl (buyStep P delta pr d) ⟨c, h, log⟩ rest := by
  have hne : ¬ (delta t * p * (1 + P.slippage) +
      delta t * p * (1 + P.slippage) * P.transaction_cost ≤ c) := by
    intro hle
    have hcc : delta t * p * (1 + P.slippage) * (1 + P.transaction_cost) =
        delta t * p * (1 + P.slippage) +
          delta t * p * (1 + P.slippage) * P.transaction_cost := by
      ring
    rw [hcc] at hc
    linarith
  have hskip : buyStep P delta pr d ⟨c, h, log⟩ t = ⟨c, h, log⟩ := by
    simp [buyStep, hpr, not_le.mpr hp, hne]
  refine ⟨hskip, fun rest => ?_⟩
  rw [List.foldl_cons, hskip]

/-- C4 witness: a 1-share buy at price 1 with zero cash in hand is skipped. -/
theorem C4_insufficient_cash_skip_witness :
    buyStep scnP (fun _ => 1) (fun _ => some 1) 0 ⟨0, fun _ => 0, []⟩ 0 =
      ⟨0, fun _ => 0, []⟩ :=
  (C4_insufficient_cash_skip scnP (fun _ => 1) (fun _ => some 1) 0 0 (fun _ => 0)
    [] 0 1 rfl (by norm_num) (by norm_num [scnP])).1

/-- C7: Target-share sizing: for a ticker with a present positive price,
`target_shares` equals `floor(target_weight * total_value / price)` when
fractional shares are allowed and `floor(target_weight * total_value / price
/ 1000) * 1000` otherwise; and in Scenario 1 (capital 1,000,000, weight
`{A: 1.0}` at date 1, fractional shares, price of A constant 100) the
holdings of A at date 2 equal exactly `floor(1.0 * 1000000 / 100)` and the
date-3 portfolio value equals cash plus holdings valued at date-3 prices. -/
theorem C7_target_share_sizing :
    (∀ (w : Nat → ℚ) (pr : Nat → Option ℚ) (total : ℚ) (t : Nat) (p : ℚ),
        pr t = some p → 0 < p →
        targetShares true w pr total t = ((⌊w t * total / p⌋ : ℤ) : ℚ) ∧
        targetShares false w pr total t = ((⌊w t * total / p / 1000⌋ : ℤ) : ℚ) * 1000) ∧
    (stateAfter scnP scnRebal 1000000 scnDays 2).holdings 0 =
      ((⌊(1 : ℚ) * 1000000 / 100⌋ : ℤ) : ℚ) ∧
    (simulate scnP scnRebal 1000000 scnDays).values[2]? =
      some ((stateAfter scnP scnRebal 1000000 scnDays 3).cash +
        holdingsValue scnP.tickers (stateAfter scnP scnRebal 1000000 scnDays 3).holdings
          (scnDays.get ⟨2, by decide⟩).price) := by
  refine ⟨fun w pr total t p hpr hp => ⟨?_, ?_⟩, ?_, ?_⟩
  · simp [targetShares, hpr]
  · simp [targetShares, hpr]
  · norm_num [stateAfter, simulate, step, execOrders, sellStep, buyStep, targetShares,
      holdingsValue, updateH, initState, scnDays, scnP, scnRebal, scnPrice]
  · norm_num [stateAfter, simulate, step, execOrders, sellStep, buyStep, targetShares,
      holdingsValue, updateH, initState, scnDays, scnP, scnRebal, scnPrice]

/-- C7 witness: the sizing formula instantiated at weight 1, total value
1,000,000 and price 100. -/
theorem C7_target_share_sizing_witness :
    targetShares true (fun _ => 1) (fun _ => some 100) 1000000 0 =
      ((⌊(1 : ℚ) * 1000000 / 100⌋ : ℤ) : ℚ) :=
  (C7_target_share_sizing.1 (fun _ => 1) (fun _ => some 100) 1000000 0 100 rfl
    (by norm_num)).1

section TradeLogStructure

variable {P : SimParams} {delta : Nat → ℚ} {pr : Nat → Option ℚ} {d : Nat}

lemma sellStep_log (acc : ExecState) (t : Nat) :
    ∃ B, (sellStep P delta pr d acc t).log = acc.log ++ B ∧
      ∀ b ∈ B, b.date = d ∧ b.action = Action.SELL := by
  cases hpr : pr t with
  | none => exact ⟨[], by simp [sellStep, hpr], by simp⟩
  | some p =>
      by_cases hp : p ≤ 0
      · exact ⟨[], by simp [sellStep, hpr, hp], by simp⟩
      · by_cases hs : 0 < min |delta t| (acc.holdings t)
        · refine ⟨[⟨d, t, Action.SELL, -(min |delta t| (acc.holdings t)), p,
            min |delta t| (acc.holdings t) * p * (1 - P.slippage),
            min |delta t| (acc.holdings t) * p * (1 - P.slippage) * P.transaction_cost +
              min |delta t| (acc.holdings t) * p * (1 - P.slippage) * P.tax⟩],
            by simp [sellStep, hpr, hp, hs], by simp⟩
        · exact ⟨[], by simp [sellStep, hpr, hp, hs], by simp⟩

lemma buyStep_log (acc : ExecState) (t : Nat) :
    ∃ B, (buyStep P delta pr d acc t).log = acc.log ++ B ∧
      ∀ b ∈ B, b.date = d ∧ b.action = Action.BUY := by
  cases hpr : pr t with
  | none => exact ⟨[], by simp [buyStep, hpr], by simp⟩
  | some p =>
      by_cases hp : p ≤ 0
      · exact ⟨[], by simp [buyStep, hpr, hp], by simp⟩
      · by_cases hc : delta t * p * (1 + P.slippage) +
            delta t * p * (1 + P.slippage) * P.transaction_cost ≤ acc.cash
        · refine ⟨[⟨d, t, Action.BUY, delta t, p, delta t * p * (1 + P.slippage),
            delta t * p * (1 + P.slippage) * P.transaction_cost⟩],
            by simp [buyStep, hpr, hp, hc], by simp⟩
        · exact ⟨[], by simp [buyStep, hpr, hp, hc], by simp⟩

lemma sellFold_log : ∀ (ts : List Nat) (acc : ExecState),
    ∃ A, (ts.foldl (sellStep P delta pr d) acc).log = acc.log ++ A ∧
      ∀ a ∈ A, a.date = d ∧ a.action = Action.SELL := by
  intro ts
  induction ts with
  | nil =>
      intro acc
      exact ⟨[], by simp, by simp⟩
  | cons t ts ih =>
      intro acc
      obtain ⟨B, hB, hBall⟩ := @sellStep_log P delta pr d acc t
      obtain ⟨A, hA, hAall⟩ := ih (sellStep P delta pr d acc t)
      refine ⟨B ++ A, ?_, ?_⟩
      · rw [List.foldl_cons, hA, hB, List.append_assoc]
      · intro a ha
        rcases List.mem_append.mp ha with hm | hm
        · exact hBall a hm
        · exact hAall a hm

lemma buyFold_log : ∀ (ts : List Nat) (acc : ExecState),
    ∃ A, (ts.foldl (buyStep P delta pr d) acc).log = acc.log ++ A ∧
      ∀ a ∈ A, a.date = d ∧ a.action = Action.BUY := by
  intro ts
  induction ts with
  | nil =>
      intro acc
      exact ⟨[], by simp, by simp⟩
  | cons t ts ih =>
      intro acc
      obtain ⟨B, hB, hBall⟩ := @buyStep_log P delta pr d acc t
      obtain ⟨A, hA, hAall⟩ := ih (buyStep P delta pr d acc t)
      refine ⟨B ++ A, ?_, ?_⟩
      · rw [List.foldl_cons, hA, hB, List.append_assoc]
      · intro a ha
        rcases List.mem_append.mp ha with hm | hm
        · exact hBall a hm
        · exact hAall a hm

lemma execOrders_log (P : SimParams) (w : Nat → ℚ) (pr : Nat → Option ℚ)
    (d : Nat) (cash : ℚ) (holdings : Nat → ℚ) :
    ∃ A B, (execOrders P w pr d cash holdings).log = A ++ B ∧
      (∀ a ∈ A, a.date = d ∧ a.action = Action.SELL) ∧
      (∀ b ∈ B, b.date = d ∧ b.action = Action.BUY) := by
  unfold execOrders
  obtain ⟨A, hA, hAall⟩ := sellFold_log
    (P.tickers.filter (fun t =>
      targetShares P.allow_fractional w pr (cash + holdingsValue P.tickers holdings pr) t -
        holdings t < -(1/100 : ℚ)))
    ⟨cash, holdings, []⟩
  obtain ⟨B, hB, hBall⟩ := buyFold_log
    (P.tickers.filter (fun t =>
      (1/100 : ℚ) < targetShares P.allow_fractional w pr
        (cash + holdingsValue P.tickers holdings pr) t - holdings t))
    ((P.tickers.filter (fun t =>
      targetShares P.allow_fractional w pr (cash + holdingsValue P.tickers holdings pr) t -
        holdings t < -(1/100 : ℚ))).foldl (sellStep P _ pr d) ⟨cash, holdings, []⟩)
  refine ⟨A, B, ?_, hAall, hBall⟩
  rw [hB, hA]
  simp

/-- The trades a single date appends: a block of same-date trades in which
every SELL comes before every BUY. -/
lemma stepNewTrades_split (P : SimParams) (st : SimState) (day : DayInput) :
    ∃ A B, stepNewTrades P st day = A ++ B ∧
      (∀ a ∈ A, a.date = day.date ∧ a.action = Action.SELL) ∧
      (∀ b ∈ B, b.date = day.date ∧ b.action = Action.BUY) := by
  cases hp : st.pending with
  | none => exact ⟨[], [], by simp [stepNewTrades, hp], by simp, by simp⟩
  | some w =>
      obtain ⟨A, B, hAB, hA, hB⟩ := execOrders_log P w day.price day.date st.cash st.holdings
      exact ⟨A, B, by simp [stepNewTrades, hp, hAB], hA, hB⟩

end TradeLogStructure

/-- Appending one date's trade block (same-date, sells before buys) to a log
whose trades all predate the block preserves the no-BUY-before-SELL order. -/
lemma trades_ordered_append (L : List Trade) (A B : List Trade) (d0 : Nat)
    (hA : ∀ a ∈ A, a.date = d0 ∧ a.action = Action.SELL)
    (hB : ∀ b ∈ B, b.date = d0 ∧ b.action = Action.BUY)
    (hfresh : ∀ tr ∈ L, tr.date ≠ d0)
    (hbase : ∀ (i j : Nat) (ti tj : Trade), i ≤ j →
      L[i]? = some ti → L[j]? = some tj →
      ti.date = tj.date → ti.action = Action.BUY → tj.action = Action.BUY) :
    ∀ (i j : Nat) (ti tj : Trade), i ≤ j →
      (L ++ (A ++ B))[i]? = some ti → (L ++ (A ++ B))[j]? = some tj →
      ti.date = tj.date → ti.action = Action.BUY → tj.action = Action.BUY := by
  intro i j ti tj hij hti htj hdate hbuy
  by_cases hi : i < L.length
  · rw [List.getElem?_append, if_pos hi] at hti
    by_cases hj : j < L.length
    · rw [List.getElem?_append, if_pos hj] at htj
      exact hbase i j ti tj hij hti htj hdate hbuy
    · rw [List.getElem?_append, if_neg hj] at htj
      have htjd : tj.date = d0 := by
        rcases List.mem_append.mp (List.getElem?_mem htj) with hm | hm
        · exact (hA tj hm).1
        · exact (hB tj hm).1
      have htim : ti ∈ L := List.getElem?_mem hti
      exact absurd (hdate.trans htjd) (hfresh ti htim)
  · have hj : ¬ j < L.length := fun hc => hi (lt_of_le_of_lt hij hc)
    rw [List.getElem?_append, if_neg hi] at hti
    rw [List.getElem?_append, if_neg hj] at htj
    by_cases hiA : i - L.length < A.length
    · rw [List.getElem?_append, if_pos hiA] at hti
      have : ti.action = Action.SELL := (hA ti (List.getElem?_mem hti)).2
      rw [hbuy] at this
      cases this
    · have hjA : ¬ j - L.length < A.length := by
        intro hc
        exact hiA (lt_of_le_of_lt (Nat.sub_le_sub_right hij _) hc)
      rw [List.getElem?_append, if_neg hjA] at htj
      exact (hB tj (List.getElem?_mem htj)).2

/-- Pushing the ordering invariant through the whole date loop: if the
already-logged trades carry dates outside the remaining (duplicate-free)
date list and are sell-before-buy ordered per date, the final log is too. -/
lemma trades_ordered_aux (P : SimParams) (rebal : Nat → Bool) :
    ∀ (l : List DayInput) (st : SimState),
      (∀ tr ∈ st.trades, tr.date ∉ l.map DayInput.date) →
      (l.map DayInput.date).Nodup →
      (∀ (i j : Nat) (ti tj : Trade), i ≤ j →
        st.trades[i]? = some ti → st.trades[j]? = some tj →
        ti.date = tj.date → ti.action = Action.BUY → tj.action = Action.BUY) →
      ∀ (i j : Nat) (ti tj : Trade), i ≤ j →
        (List.foldl (step P rebal) st l).trades[i]? = some ti →
        (List.foldl (step P rebal) st l).trades[j]? = some tj →
        ti.date = tj.date → ti.action = Action.BUY → tj.action = Action.BUY := by
  intro l
  induction l with
  | nil =>
      intro st _ _ hbase
      simpa using hbase
  | cons day l ih =>
      intro st hfresh hnd hbase
      rw [List.map_cons, List.nodup_cons] at hnd
      obtain ⟨A, B, hAB, hA, hB⟩ := stepNewTrades_split P st day
      have hnew : (step P rebal st day).trades = st.trades ++ (A ++ B) := by
        rw [step_trades, hAB]
      rw [List.foldl_cons]
      apply ih (step P rebal st day)
      · intro tr htr hmem
        rw [hnew] at htr
        rcases List.mem_append.mp htr with hm | hm
        · exact hfresh tr hm (by simp [hmem])
        · have hd : tr.date = day.date := by
            rcases List.mem_append.mp hm with hm2 | hm2
            · exact (hA tr hm2).1
            · exact (hB tr hm2).1
          rw [hd] at hmem
          exact hnd.1 hmem
      · exact hnd.2
      · rw [hnew]
        apply trades_ordered_append st.trades A B day.date hA hB
        · intro tr htr hc
          exact hfresh tr htr (by simp [hc])
        · exact hbase

/-- C3: Sell-before-buy: each date's deltas are partitioned into sells
(`delta < -0.01`) and buys (`delta > 0.01`) and all sells run first, so in
the emitted trade log (with pairwise-distinct simulated dates) a BUY for a
date is never followed by a SELL for the same date: any trade at or after a
same-date BUY is itself a BUY. -/
theorem C3_sell_before_buy (P : SimParams) (rebal : Nat → Bool) (cap : ℚ)
    (days : List DayInput) (hnd : (days.map DayInput.date).Nodup)
    (i j : Nat) {ti tj : Trade} (hij : i ≤ j)
    (hti : (simulate P rebal cap days).trades[i]? = some ti)
    (htj : (simulate P rebal cap days).trades[j]? = some tj)
    (hdate : ti.date = tj.date) (hbuy : ti.action = Action.BUY) :
    tj.action = Action.BUY := by
  unfold simulate at hti htj
  refine trades_ordered_aux P rebal days (initState cap) ?_ hnd ?_ i j ti tj hij hti htj hdate hbuy
  · intro tr htr
    simp [initState] at htr
  · intro a b ta tb _ ha
    simp [initState] at ha

/-- C3 witness: in the Scenario-1 run the only trade is the date-2 BUY of A;
the ordering theorem instantiated at that trade. -/
theorem C3_sell_before_buy_witness :
    (⟨2, 0, Action.BUY, 10000, 100, 1000000, 0⟩ : Trade).action = Action.BUY := by
  have htr : (simulate scnP scnRebal 1000000 scnDays).trades[0]? =
      some ⟨2, 0, Action.BUY, 10000, 100, 1000000, 0⟩ := by
    norm_num [simulate, step, execOrders, sellStep, buyStep, targetShares,
      holdingsValue, updateH, initState, scnDays, scnP, scnRebal, scnPrice]
  exact C3_sell_before_buy scnP scnRebal 1000000 scnDays (by decide) 0 0
    (le_refl 0) htr htr rfl rfl

lemma tradesAt_eq {P : SimParams} {rebal : Nat → Bool} {cap : ℚ}
    (days : List DayInput) (i : Nat) (hi : i < days.length) :
    tradesAt P rebal cap days i =
      stepNewTrades P (stateAfter P rebal cap days i) (days.get ⟨i, hi⟩) := by
  unfold tradesAt
  rw [stateAfter_succ days i hi, step_trades, List.drop_left]

lemma stateAfter_pending {P : SimParams} {rebal : Nat → Bool} {cap : ℚ}
    (days : List DayInput) (i : Nat) (hi : i < days.length) :
    (stateAfter P rebal cap days (i + 1)).pending =
      if rebal (days.get ⟨i, hi⟩).date then
        some (fun t => ((days.get ⟨i, hi⟩).weight t).getD 0)
      else none := by
  rw [stateAfter_succ days i hi, step_pending]

/-- C1: No-lookahead: when the date at index `i` is a rebalance date, the
trades the simulator emits while processing the next date (index `i + 1`)
are a function of only the weight row at index `i`, the price row and date
at index `i + 1`, and the carried cash and holdings accumulated before that
date: two runs agreeing on exactly those data (prices before the decision
date and all later prices may differ arbitrarily) emit identical trades
there, so no price at the decision date is used for sizing and no later
price is used at all. -/
theorem C1_no_lookahead (P : SimParams) (rebal1 rebal2 : Nat → Bool)
    (cap1 cap2 : ℚ) (days1 days2 : List DayInput) (i : Nat)
    (h1 : i + 1 < days1.length) (h2 : i + 1 < days2.length)
    (hr1 : rebal1 (days1.get ⟨i, Nat.lt_of_succ_lt h1⟩).date = true)
    (hr2 : rebal2 (days2.get ⟨i, Nat.lt_of_succ_lt h2⟩).date = true)
    (hw : ∀ t, (days1.get ⟨i, Nat.lt_of_succ_lt h1⟩).weight t =
               (days2.get ⟨i, Nat.lt_of_succ_lt h2⟩).weight t)
    (hp : ∀ t, (days1.get ⟨i + 1, h1⟩).price t = (days2.get ⟨i + 1, h2⟩).price t)
    (hd : (days1.get ⟨i + 1, h1⟩).date = (days2.get ⟨i + 1, h2⟩).date)
    (hcash : (stateAfter P rebal1 cap1 days1 (i + 1)).cash =
             (stateAfter P rebal2 cap2 days2 (i + 1)).cash)
    (hhold : ∀ t, (stateAfter P rebal1 cap1 days1 (i + 1)).holdings t =
                  (stateAfter P rebal2 cap2 days2 (i + 1)).holdings t) :
    tradesAt P rebal1 cap1 days1 (i + 1) = tradesAt P rebal2 cap2 days2 (i + 1) := by
  have ew : (fun t => ((days1.get ⟨i, Nat.lt_of_succ_lt h1⟩).weight t).getD 0) =
      (fun t => ((days2.get ⟨i, Nat.lt_of_succ_lt h2⟩).weight t).getD 0) :=
    funext fun t => by rw [hw t]
  have ep : (days1.get ⟨i + 1, h1⟩).price = (days2.get ⟨i + 1, h2⟩).price := funext hp
  have eh : (stateAfter P rebal1 cap1 days1 (i + 1)).holdings =
      (stateAfter P rebal2 cap2 days2 (i + 1)).holdings := funext hhold
  rw [tradesAt_eq days1 (i + 1) h1, tradesAt_eq days2 (i + 1) h2]
  unfold stepNewTrades
  rw [stateAfter_pending days1 i (Nat.lt_of_succ_lt h1),
      stateAfter_pending days2 i (Nat.lt_of_succ_lt h2), hr1, hr2]
  simp only [if_true]
  rw [ew, ep, hd, hcash, eh]

/-- C1 witness: the no-lookahead theorem instantiated with two copies of the
Scenario-1 run at its first rebalance date. -/
theorem C1_no_lookahead_witness :
    tradesAt scnP scnRebal 1000000 scnDays 1 = tradesAt scnP scnRebal 1000000 scnDays 1 :=
  C1_no_lookahead scnP scnRebal scnRebal 1000000 1000000 scnDays scnDays 0
    (by decide) (by decide) (by decide) (by decide) (fun t => rfl) (fun t => rfl)
    rfl rfl (fun t => rfl)

/-- C5: Non-negative holdings: every ticker's holding starts at zero, and at
every point of the simulation (after any number of processed dates) every
ticker's holding is non-negative: sells remove at most the held amount and
executed buys only add a positive delta. -/
theorem C5_nonneg_holdings (P : SimParams) (rebal : Nat → Bool) (cap : ℚ)
    (days : List DayInput) :
    (∀ t, (initState cap).holdings t = 0) ∧
      ∀ i t, 0 ≤ (stateAfter P rebal cap days i).holdings t := by
  constructor
  · intro t
    rfl
  · have key : ∀ (l : List DayInput) (st : SimState), (∀ u, 0 ≤ st.holdings u) →
        ∀ u, 0 ≤ (List.foldl (step P rebal) st l).holdings u := by
      intro l
      induction l with
      | nil => intro st h; simpa using h
      | cons dd l ih =>
          intro st h
          rw [List.foldl_cons]
          exact ih _ (step_holdings_nonneg st dd h)
    intro i t
    exact key _ _ (fun u => le_of_eq rfl) t

lemma sum_neg_of_all_neg : ∀ (l : List ℚ), l ≠ [] → (∀ x ∈ l, x < 0) → l.sum < 0 := by
  intro l
  induction l with
  | nil =>
      intro h
      exact absurd rfl h
  | cons x r ih =>
      intro _ hall
      rw [List.sum_cons]
      rcases eq_or_ne r [] with hr | hr
      · subst hr
        simpa using hall x (by simp)
      · have h1 := ih hr (fun y hy => hall y (List.mem_cons_of_mem x hy))
        have h2 := hall x (List.mem_cons_self x r)
        linarith

/-- C8 counterexample: on the returns series `[1, 0]` there is no
negative-return day (the filter of negatives is empty), yet the code's
`profit_loss_ratio` is `0`, not the mean of the positive returns (`1`): the
code substitutes the denominator `1` only when `losing_days =
total_days - winning_days` is zero, and the zero-return day makes it one,
sending `avg_loss` down the NaN path. -/
theorem C8_profit_loss_ratio_counterexample :
    [(1 : ℚ), 0].filter (fun r => r < 0) = [] ∧
    profit_loss_ratio [(1 : ℚ), 0] = 0 ∧
    ([(1 : ℚ), 0].filter (fun r => 0 < r)).sum /
      (([(1 : ℚ), 0].filter (fun r => 0 < r)).length : ℚ) = 1 ∧
    (0 : ℚ) ≠ 1 := by
  refine ⟨?_, ?_, ?_, ?_⟩ <;> norm_num [profit_loss_ratio, listMean]

/-- C8 amended: for every non-empty returns series, `profit_loss_ratio` is
`mean(positive returns) / |mean(negative returns)|` whenever at least one
return is strictly negative (with an `avg_win` of `0` when no return is
positive); the denominator is substituted by exactly `1` — so the ratio
equals the mean of the positive returns — exactly when every day is a
winning day (every return strictly positive), not merely when no day is
negative: with a zero-return day but no negative day the ratio is `0`. -/
theorem C8_profit_loss_ratio_amended (rs : List ℚ) (hne : rs ≠ []) :
    ((∀ r ∈ rs, 0 < r) → profit_loss_ratio rs =
        (rs.filter (fun r => 0 < r)).sum / ((rs.filter (fun r => 0 < r)).length : ℚ)) ∧
    ((∃ r ∈ rs, r < 0) → profit_loss_ratio rs =
        (if 0 < (rs.filter (fun r => 0 < r)).length then
          (rs.filter (fun r => 0 < r)).sum / ((rs.filter (fun r => 0 < r)).length : ℚ)
         else 0) /
        |(rs.filter (fun r => r < 0)).sum / ((rs.filter (fun r => r < 0)).length : ℚ)|) ∧
    (((∀ r ∈ rs, 0 ≤ r) ∧ (∃ r ∈ rs, r = 0)) → profit_loss_ratio rs = 0) := by
  refine ⟨fun hall => ?_, fun hex => ?_, fun hz => ?_⟩
  · have hf : rs.filter (fun r => 0 < r) = rs :=
      List.filter_eq_self.mpr (by intro a ha; simpa using hall a ha)
    simp [profit_loss_ratio, hf, Nat.sub_self, List.length_pos.mpr hne]
  · obtain ⟨r0, hr0, hr0neg⟩ := hex
    have hmem : r0 ∈ rs.filter (fun r => r < 0) :=
      List.mem_filter.mpr ⟨hr0, by simpa using hr0neg⟩
    have hnneg : rs.filter (fun r => r < 0) ≠ [] := List.ne_nil_of_mem hmem
    have hlenpos : 0 < (rs.filter (fun r => r < 0)).length := List.length_pos.mpr hnneg
    have hsum : (rs.filter (fun r => r < 0)).sum < 0 :=
      sum_neg_of_all_neg _ hnneg (fun x hx => by
        simpa using (List.mem_filter.mp hx).2)
    have hmean : (rs.filter (fun r => r < 0)).sum /
        ((rs.filter (fun r => r < 0)).length : ℚ) < 0 :=
      div_neg_of_neg_of_pos hsum (by exact_mod_cast hlenpos)
    have habs : 0 < |(rs.filter (fun r => r < 0)).sum /
        ((rs.filter (fun r => r < 0)).length : ℚ)| :=
      abs_pos.mpr (ne_of_lt hmean)
    have hlose : 0 < rs.length - (rs.filter (fun r => 0 < r)).length := by
      have : (rs.filter (fun r => 0 < r)).length < rs.length := by
        rw [List.length_filter_lt_length_iff_exists]
        exact ⟨r0, hr0, by simp [not_lt.mpr (le_of_lt hr0neg)]⟩
      omega
    simp only [profit_loss_ratio, if_pos hlose, listMean, if_neg hnneg, if_pos habs]
  · obtain ⟨hall, z, hz0, hzeq⟩ := hz
    have hnil : rs.filter (fun r => r < 0) = [] :=
      List.filter_eq_nil_iff.mpr (by
        intro a ha
        simpa using not_lt.mpr (hall a ha))
    have hlose : 0 < rs.length - (rs.filter (fun r => 0 < r)).length := by
      have : (rs.filter (fun r => 0 < r)).length < rs.length := by
        rw [List.length_filter_lt_length_iff_exists]
        exact ⟨z, hz0, by simp [hzeq]⟩
      omega
    have hlt : (rs.filter (fun r => 0 < r)).length < rs.length := by omega
    simp [profit_loss_ratio, if_pos hlose, listMean, hnil, hlt]

/-- C8 amended witness: on the all-positive series `[1/2]` the denominator
is the substituted `1` and the ratio is the mean of the positives. -/
theorem C8_profit_loss_ratio_amended_witness :
    profit_loss_ratio [(1/2 : ℚ)] =
      ([(1/2 : ℚ)].filter (fun r => 0 < r)).sum /
        (([(1/2 : ℚ)].filter (fun r => 0 < r)).length : ℚ) :=
  (C8_profit_loss_ratio_amended [(1/2 : ℚ)] (by simp)).1 (by
    intro r hr
    rw [List.mem_singleton] at hr
    rw [hr]
    norm_num)

lemma chunkRuns_cons (c : Bool) (r : List Bool) :
    chunkRuns (c :: r) =
      (c :: r.takeWhile (fun x => x == c)) :: chunkRuns (r.dropWhile (fun x => x == c)) := by
  induction r generalizing c with
  | nil => rfl
  | cons d r2 ih =>
      have hstep : chunkRuns (c :: d :: r2) =
          match chunkRuns (d :: r2) with
          | [] => [[c]]
          | [] :: gs => [c] :: gs
          | (e :: g) :: gs =>
              if c = e then (c :: e :: g) :: gs else [c] :: (e :: g) :: gs := rfl
      rw [hstep, ih d]
      by_cases hcd : c = d
      · subst hcd
        simp [List.takeWhile_cons, List.dropWhile_cons]
      · have hbeq : (d == c) = false := by
          simpa using Ne.symm hcd
        simp [List.takeWhile_cons, List.dropWhile_cons, hbeq, hcd, ih d]

lemma length_dropWhile_le_self (p : Bool → Bool) : ∀ (l : List Bool),
    (l.dropWhile p).length ≤ l.length := by
  intro l
  induction l with
  | nil => simp
  | cons x r ih =>
      rw [List.dropWhile_cons]
      by_cases hx : p x = true
      · simp only [hx, if_true]
        exact le_trans ih (by simp)
      · simp [hx]

lemma dropWhile_beq_head (c : Bool) : ∀ (r : List Bool),
    r.dropWhile (fun y => y == c) = [] ∨
    ∃ s, r.dropWhile (fun y => y == c) = (!c) :: s := by
  intro r
  induction r with
  | nil => exact Or.inl rfl
  | cons d r2 ih =>
      rw [List.dropWhile_cons]
      by_cases hd : (d == c) = true
      · simpa [hd] using ih
      · refine Or.inr ⟨r2, ?_⟩
        have hdc : d = !c := by
          cases c <;> cases d <;> simp_all
        simp [hd, hdc]

lemma truePrefixLen_append_true (tw dw : List Bool)
    (htw : ∀ x ∈ tw, x = true) (hdw : dw = [] ∨ ∃ s, dw = false :: s) :
    truePrefixLen (tw ++ dw) = tw.length := by
  induction tw with
  | nil =>
      rcases hdw with h | ⟨s, h⟩ <;> subst h <;> rfl
  | cons x tw2 ih =>
      have hx : x = true := htw x (List.mem_cons_self x tw2)
      subst hx
      have : truePrefixLen (true :: (tw2 ++ dw)) = truePrefixLen (tw2 ++ dw) + 1 := rfl
      rw [List.cons_append, this, ih (fun y hy => htw y (List.mem_cons_of_mem true hy))]
      rfl

lemma longestTrueRun_false_block (tw dw : List Bool)
    (htw : ∀ x ∈ tw, x = false) :
    longestTrueRun (tw ++ dw) = longestTrueRun dw := by
  induction tw with
  | nil => rfl
  | cons x tw2 ih =>
      have hx : x = false := htw x (List.mem_cons_self x tw2)
      subst hx
      rw [List.cons_append]
      show longestTrueRun (tw2 ++ dw) = longestTrueRun dw
      exact ih (fun y hy => htw y (List.mem_cons_of_mem false hy))

lemma longestTrueRun_true_block (tw dw : List Bool)
    (htw : ∀ x ∈ tw, x = true) (hdw : dw = [] ∨ ∃ s, dw = false :: s) :
    longestTrueRun (tw ++ dw) = max tw.length (longestTrueRun dw) := by
  induction tw with
  | nil => simp
  | cons x tw2 ih =>
      have hx : x = true := htw x (List.mem_cons_self x tw2)
      subst hx
      have htw2 : ∀ y ∈ tw2, y = true := fun y hy => htw y (List.mem_cons_of_mem true hy)
      rw [List.cons_append]
      show max (truePrefixLen (tw2 ++ dw) + 1) (longestTrueRun (tw2 ++ dw)) = _
      rw [truePrefixLen_append_true tw2 dw htw2 hdw, ih htw2]
      simp only [List.length_cons]
      omega

lemma maxRun_eq_longestTrueRun : ∀ (n : Nat) (l : List Bool), l.length ≤ n →
    ((chunkRuns l).map (fun g => g.count true)).foldr max 0 = longestTrueRun l := by
  intro n
  induction n with
  | zero =>
      intro l hl
      have : l = [] := List.length_eq_zero.mp (Nat.le_zero.mp hl)
      subst this
      rfl
  | succ n ih =>
      intro l hl
      cases l with
      | nil => rfl
      | cons c r =>
          rw [chunkRuns_cons]
          have htw : ∀ x ∈ r.takeWhile (fun y => y == c), x = c := fun x hx => by
            simpa using List.mem_takeWhile_imp hx
          have hsplit : r.takeWhile (fun y => y == c) ++ r.dropWhile (fun y => y == c) = r :=
            List.takeWhile_append_dropWhile _ _
          have hlen : (r.dropWhile (fun y => y == c)).length ≤ n := by
            have h1 := length_dropWhile_le_self (fun y => y == c) r
            simp only [List.length_cons] at hl
            omega
          have hrec := ih _ hlen
          rw [List.map_cons, List.foldr_cons, hrec]
          cases c with
          | false =>
              have hcount : (false :: r.takeWhile (fun y => y == false)).count true = 0 := by
                rw [List.count_eq_zero]
                intro hmem
                rcases List.mem_cons.mp hmem with h | h
                · cases h
                · cases htw true h
              rw [hcount]
              have hltr : longestTrueRun (false :: r) = longestTrueRun r := rfl
              rw [hltr]
              conv_rhs => rw [← hsplit]
              rw [longestTrueRun_false_block _ _ htw]
              simp
          | true =>
              have halltrue : ∀ x ∈ true :: r.takeWhile (fun y => y == true), true = x := by
                intro x hx
                rcases List.mem_cons.mp hx with h | h
                · rw [h]
                · rw [htw x h]
              have hcount : (true :: r.takeWhile (fun y => y == true)).count true =
                  (r.takeWhile (fun y => y == true)).length + 1 := by
                rw [List.count_eq_length.mpr halltrue]
                rfl
              rw [hcount]
              have hdw := dropWhile_beq_head true r
              simp only [Bool.not_true] at hdw
              have hltr : longestTrueRun (true :: r) =
                  max (truePrefixLen r + 1) (longestTrueRun r) := rfl
              rw [hltr]
              conv_rhs => rw [← hsplit]
              rw [truePrefixLen_append_true _ _ htw hdw,
                  longestTrueRun_true_block _ _ htw hdw]
              omega

/-- C9: `max_drawdown_days`, computed by grouping consecutive below-peak
flags and maximising the per-group flag sums, equals the length of the
longest contiguous run of dates strictly below the running maximum, and on
the value series `[100, 90, 80, 95, 110]` it is exactly `3`. -/
theorem C9_max_drawdown_days_longest_run :
    (∀ vs : List ℚ, max_drawdown_days vs = longestTrueRun (belowFlags vs)) ∧
    max_drawdown_days [(100 : ℚ), 90, 80, 95, 110] = 3 := by
  constructor
  · intro vs
    exact maxRun_eq_longestTrueRun (belowFlags vs).length (belowFlags vs) le_rfl
  · norm_num [max_drawdown_days, belowFlags, belowFlagsAux, chunkRuns, max_def]

/-- C10: Degenerate metrics guard: an empty portfolio-value series or a
non-positive initial capital short-circuits `_calculate_metrics` to the
all-zero/neutral `_empty_metrics` record (all fourteen metrics `0.0`); as a
total Lean function it trivially never raises. -/
theorem C10_degenerate_metrics_guard (sqrtQ : ℚ → ℚ) (powQ : ℚ → ℚ → ℚ)
    (portfolio_value portfolio_returns : List ℚ) (initial_capital : ℚ)
    (weights : List (List ℚ)) (trades : List Trade)
    (h : portfolio_value = [] ∨ initial_capital ≤ 0) :
    calculateMetrics sqrtQ powQ portfolio_value portfolio_returns
      initial_capital weights trades = emptyMetrics := by
  unfold calculateMetrics
  rcases h with h | h
  · rw [if_pos (Or.inl (by simp [h]))]
  · rw [if_pos (Or.inr h)]

/-- C10 witness: the guard at the concrete degenerate input of an empty
value series. -/
theorem C10_degenerate_metrics_guard_witness :
    calculateMetrics (fun _ => 0) (fun _ _ => 0) [] [] 1 [] [] = emptyMetrics :=
  C10_degenerate_metrics_guard (fun _ => 0) (fun _ _ => 0) [] [] 1 [] []
    (Or.inl rfl)

end Engine
